import Mathlib

/-!
Pixel conversions of openslide `_convert.c`

A shallow embedding of `src/openslide/_convert.c` and theorems about it.

* Machine integers are natural numbers; every place where C narrows a value
  (`u8 x = ...`, a `PY_UINT32_T` result) is an explicit `u8` / `u32`.
* Integer division is the partial operation `udiv`, which faults on a zero
  divisor; array accesses outside the buffer fault as well.
* `WORDS_BIGENDIAN` is the boolean parameter `bigendian` of the functions whose
  text depends on it.
* The 32-bit float arithmetic of `argb2float` is a parameter: a carrier `F` with
  a conversion from integers and a division.  Instantiated at `ℚ` it gives the
  exact value of each quotient.
-/

namespace Convert

/-! ## Machine model -/

/-- Run-time faults of the C abstract machine that the embedding makes explicit. -/
inductive Fault where
  | div_by_zero
  | out_of_bounds
  deriving DecidableEq, Repr

/-- Conversion to `unsigned char` (`typedef unsigned char u8;`). -/
def u8 (x : Nat) : Nat := x % 256

/-- Conversion to `PY_UINT32_T`. -/
def u32 (x : Nat) : Nat := x % 4294967296

/-- Unsigned integer division of C: undefined, here a fault, when the divisor is zero. -/
def udiv (x a : Nat) : Except Fault Nat :=
  if a = 0 then Except.error Fault.div_by_zero else Except.ok (x / a)

/-- The four bytes a host stores for a 32-bit word, lowest address first:
most significant byte first on a big-endian host, least significant first otherwise. -/
def memBytes (bigendian : Bool) (w : Nat) : List Nat :=
  if bigendian then
    [(w >>> 24) % 256, (w >>> 16) % 256, (w >>> 8) % 256, w % 256]
  else
    [w % 256, (w >>> 8) % 256, (w >>> 16) % 256, (w >>> 24) % 256]

/-- Read of `xs[i]`; a fault outside the buffer. -/
def readAt {α : Type} (xs : List α) (i : Nat) : Except Fault α :=
  match xs[i]? with
  | some x => Except.ok x
  | none => Except.error Fault.out_of_bounds

/-- Assignment `xs[i] = v`; a fault outside the buffer. -/
def writeAt {α : Type} (xs : List α) (i : Nat) (v : α) : Except Fault (List α) :=
  if i < xs.length then Except.ok (xs.set i v) else Except.error Fault.out_of_bounds

/-! ## `argb2rgba` -/

/-- Body of the loop of `argb2rgba` (lines 52-81) for one pixel `val = buf[cur]`;
the result is the word assigned to `buf[cur]`.  The division operator is the
parameter `dv`; the C program is the instance `dv = udiv`.  The shifts of the
promoted `u8` values in the default branch are taken modulo `2^32`, the value
the assignment to `val` stores. -/
def argb2rgba_pixel_with (dv : Nat → Nat → Except Fault Nat) (bigendian : Bool)
    (val : Nat) : Except Fault Nat :=
  let a := u8 (val >>> 24)
  if a = 0 then
    Except.ok 0xffffffff
  else if a = 255 then
    let val1 := u32 (u32 (val <<< 8) ||| a)
    if bigendian then
      Except.ok val1
    else
      Except.ok (u32 (u32 ((val1 &&& 0x000000ff) <<< 24) |||
                      u32 ((val1 &&& 0x0000ff00) <<< 8) |||
                      ((val1 &&& 0x00ff0000) >>> 8) |||
                      ((val1 &&& 0xff000000) >>> 24)))
  else
    match dv (u32 (255 * ((val >>> 16) &&& 0xff))) a with
    | Except.error e => Except.error e
    | Except.ok qr =>
      match dv (u32 (255 * ((val >>> 8) &&& 0xff))) a with
      | Except.error e => Except.error e
      | Except.ok qg =>
        match dv (u32 (255 * ((val >>> 0) &&& 0xff))) a with
        | Except.error e => Except.error e
        | Except.ok qb =>
          let r := u8 qr
          let g := u8 qg
          let b := u8 qb
          if bigendian then
            Except.ok (u32 (r <<< 24 ||| g <<< 16 ||| b <<< 8 ||| a))
          else
            Except.ok (u32 (a <<< 24 ||| b <<< 16 ||| g <<< 8 ||| r))

/-- One pixel of `argb2rgba` with the division of C. -/
def argb2rgba_pixel (bigendian : Bool) (val : Nat) : Except Fault Nat :=
  argb2rgba_pixel_with udiv bigendian val

/-- The `for (cur = 0; cur < len; cur++)` loop of `argb2rgba`: the first argument
is the number of iterations still to run, `len - cur`. -/
def argb2rgba_loop (dv : Nat → Nat → Except Fault Nat) (bigendian : Bool) :
    Nat → Nat → List Nat → Except Fault (List Nat)
  | 0, _, buf => Except.ok buf
  | n + 1, cur, buf =>
    match readAt buf cur with
    | Except.error e => Except.error e
    | Except.ok val =>
      match argb2rgba_pixel_with dv bigendian val with
      | Except.error e => Except.error e
      | Except.ok w =>
        match writeAt buf cur w with
        | Except.error e => Except.error e
        | Except.ok buf1 => argb2rgba_loop dv bigendian n (cur + 1) buf1

/-- Embedding of `argb2rgba(buf, len)` with the division operator as a parameter. -/
def argb2rgba_with (dv : Nat → Nat → Except Fault Nat) (bigendian : Bool)
    (buf : List Nat) (len : Nat) : Except Fault (List Nat) :=
  argb2rgba_loop dv bigendian len 0 buf

/-- Embedding of `argb2rgba(buf, len)`: the buffer of 32-bit words after the call. -/
def argb2rgba (bigendian : Bool) (buf : List Nat) (len : Nat) : Except Fault (List Nat) :=
  argb2rgba_with udiv bigendian buf len

/-! ## `argb2float` -/

/-- Body of the loop of `argb2float` (lines 29-42) for one pixel: the three values
stored at `tensor[cur*3]`, `tensor[cur*3+1]`, `tensor[cur*3+2]`.  A value of the
carrier `F` stands for a `float`; `((n : Nat) : F)` is the conversion `(float) n`
(also of the literals `1.0` and `255`) and `/` the float division. -/
def argb2float_pixel {F : Type} [NatCast F] [Div F] (val : Nat) : F × F × F :=
  let a := u8 (val >>> 24)
  if a = 0 then
    (((1 : Nat) : F), ((1 : Nat) : F), ((1 : Nat) : F))
  else
    ((((val &&& 0x00ff0000) >>> 16 : Nat) : F) / ((255 : Nat) : F),
     (((val &&& 0x0000ff00) >>> 8 : Nat) : F) / ((255 : Nat) : F),
     ((val &&& 0x000000ff : Nat) : F) / ((255 : Nat) : F))

/-- The `for` loop of `argb2float` on the pair of buffers `(buf, tensor)`; the
first argument is the number of iterations still to run. -/
def argb2float_loop {F : Type} [NatCast F] [Div F] :
    Nat → Nat → List Nat → List F → Except Fault (List Nat × List F)
  | 0, _, buf, tensor => Except.ok (buf, tensor)
  | n + 1, cur, buf, tensor =>
    match readAt buf cur with
    | Except.error e => Except.error e
    | Except.ok val =>
      let p : F × F × F := argb2float_pixel val
      match writeAt tensor (cur * 3) p.1 with
      | Except.error e => Except.error e
      | Except.ok t1 =>
        match writeAt t1 (cur * 3 + 1) p.2.1 with
        | Except.error e => Except.error e
        | Except.ok t2 =>
          match writeAt t2 (cur * 3 + 2) p.2.2 with
          | Except.error e => Except.error e
          | Except.ok t3 => argb2float_loop n (cur + 1) buf t3

/-- Embedding of `argb2float(buf, tensor, len)`: both buffers after the call. -/
def argb2float {F : Type} [NatCast F] [Div F] (buf : List Nat) (tensor : List F)
    (len : Nat) : Except Fault (List Nat × List F) :=
  argb2float_loop len 0 buf tensor

/-! ## Entry points -/

/-- The fields of `Py_buffer` the entry points read.  `buf` is the exported
memory as a list of cells of type `α`: bytes for a view the callee reads as
`PY_UINT32_T *`, floats for the view it reads as `float *`. -/
structure Py_buffer (α : Type) where
  buf : List α
  itemsize : Nat
  readonly : Bool
  contiguous : Bool

/-- Field `len` of a view over bytes: the length of the memory block in bytes. -/
def byteLen (view : Py_buffer Nat) : Nat := view.buf.length

/-- Field `len` of a view over `float` cells: four bytes for each cell. -/
def floatByteLen {F : Type} (view : Py_buffer F) : Nat := 4 * view.buf.length

/-- What the entry point hands back to the interpreter: `Py_None`, or `NULL`
with a `ValueError` carrying the given message. -/
inductive PyResult where
  | Py_None
  | ValueError (msg : String)
  deriving DecidableEq, Repr

/-- The words a host reads through `(PY_UINT32_T *) view.buf`: each group of four
bytes in the byte order of the host; a tail of fewer than four bytes is no word. -/
def wordsOfBytes (bigendian : Bool) : List Nat → List Nat
  | b0 :: b1 :: b2 :: b3 :: rest =>
    (if bigendian then b0 * 16777216 + b1 * 65536 + b2 * 256 + b3
     else b3 * 16777216 + b2 * 65536 + b1 * 256 + b0) :: wordsOfBytes bigendian rest
  | _ => []

/-- The bytes in memory of a list of words, in the byte order of the host. -/
def bytesOfWords (bigendian : Bool) : List Nat → List Nat
  | [] => []
  | w :: rest => memBytes bigendian w ++ bytesOfWords bigendian rest

/-- Embedding of `_convert_argb2rgba` (lines 135-170) for an argument that
`PyArg_ParseTuple` accepts as a buffer: the result handed back and the view
after the call. -/
def _convert_argb2rgba (bigendian : Bool) (view : Py_buffer Nat) :
    Except Fault (PyResult × Py_buffer Nat) :=
  if !view.contiguous then
    Except.ok (PyResult.ValueError "Argument is not contiguous", view)
  else if view.readonly then
    Except.ok (PyResult.ValueError "Argument is not writable", view)
  else if byteLen view % 4 ≠ 0 then
    Except.ok (PyResult.ValueError "Argument has invalid size", view)
  else if view.itemsize ≠ 4 then
    Except.ok (PyResult.ValueError "Argument has invalid item size", view)
  else
    match argb2rgba bigendian (wordsOfBytes bigendian view.buf) (byteLen view / 4) with
    | Except.error e => Except.error e
    | Except.ok ws =>
      Except.ok (PyResult.Py_None,
        { view with buf := bytesOfWords bigendian ws ++ view.buf.drop (4 * (byteLen view / 4)) })

/-- Embedding of `_convert_argb2float` (lines 87-132) for arguments that
`PyArg_ParseTuple` accepts as buffers: the result handed back and both views
after the call. -/
def _convert_argb2float {F : Type} [NatCast F] [Div F] (bigendian : Bool)
    (image_argb : Py_buffer Nat) (image_rgb_float : Py_buffer F) :
    Except Fault (PyResult × Py_buffer Nat × Py_buffer F) :=
  if !image_argb.contiguous then
    Except.ok (PyResult.ValueError "Argument is not contiguous", image_argb, image_rgb_float)
  else if !image_rgb_float.contiguous then
    Except.ok (PyResult.ValueError "Argument is not contiguous", image_argb, image_rgb_float)
  else if image_rgb_float.readonly then
    Except.ok (PyResult.ValueError "Argument is not writable", image_argb, image_rgb_float)
  else if byteLen image_argb % 4 ≠ 0 then
    Except.ok (PyResult.ValueError "Argument has invalid size", image_argb, image_rgb_float)
  else if floatByteLen image_rgb_float % 3 ≠ 0 then
    Except.ok (PyResult.ValueError "Argument has invalid size", image_argb, image_rgb_float)
  else if image_argb.itemsize ≠ 4 then
    Except.ok (PyResult.ValueError "Argument has invalid item size", image_argb, image_rgb_float)
  else
    match argb2float (wordsOfBytes bigendian image_argb.buf) image_rgb_float.buf
        (byteLen image_argb / 4) with
    | Except.error e => Except.error e
    | Except.ok (ws, tensor) =>
      Except.ok (PyResult.Py_None,
        { image_argb with
            buf := bytesOfWords bigendian ws ++ image_argb.buf.drop (4 * (byteLen image_argb / 4)) },
        { image_rgb_float with buf := tensor })

/-! ## Data model of a pixel -/

/-- Alpha byte of an ARGB word: bits 24-31. -/
def alphaOf (val : Nat) : Nat := (val >>> 24) % 256

/-- Red byte of an ARGB word: bits 16-23. -/
def redOf (val : Nat) : Nat := (val >>> 16) % 256

/-- Green byte of an ARGB word: bits 8-15. -/
def greenOf (val : Nat) : Nat := (val >>> 8) % 256

/-- Blue byte of an ARGB word: bits 0-7. -/
def blueOf (val : Nat) : Nat := val % 256

/-- Value of `u8 r = 255 * c / a` in the default branch of `argb2rgba`, for a
non-zero divisor `a`: the unsigned quotient narrowed to 8 bits. -/
def unpremul (c a : Nat) : Nat := u8 (u32 (255 * c) / a)

/-- The float buffer expected for a pixel buffer: for each pixel in order, the
three values `argb2float_pixel` gives for it. -/
def floatImage {F : Type} [NatCast F] [Div F] : List Nat → List F
  | [] => []
  | val :: rest =>
    (argb2float_pixel val : F × F × F).1 :: (argb2float_pixel val : F × F × F).2.1
      :: (argb2float_pixel val : F × F × F).2.2 :: floatImage rest

/-- The `default:` branch of the switch of `argb2rgba` (lines 69-80) on its own,
for the pixel `val` and the alpha byte `a`. -/
def argb2rgba_default_branch (dv : Nat → Nat → Except Fault Nat) (bigendian : Bool)
    (val a : Nat) : Except Fault Nat :=
  match dv (u32 (255 * ((val >>> 16) &&& 0xff))) a with
  | Except.error e => Except.error e
  | Except.ok qr =>
    match dv (u32 (255 * ((val >>> 8) &&& 0xff))) a with
    | Except.error e => Except.error e
    | Except.ok qg =>
      match dv (u32 (255 * ((val >>> 0) &&& 0xff))) a with
      | Except.error e => Except.error e
      | Except.ok qb =>
        let r := u8 qr
        let g := u8 qg
        let b := u8 qb
        if bigendian then
          Except.ok (u32 (r <<< 24 ||| g <<< 16 ||| b <<< 8 ||| a))
        else
          Except.ok (u32 (a <<< 24 ||| b <<< 16 ||| g <<< 8 ||| r))

/-- The word `argb2rgba` stores for the pixel `val`; a fault of the pixel
conversion, which never occurs, would read as 0. -/
def argb2rgba_word (bigendian : Bool) (val : Nat) : Nat :=
  match argb2rgba_pixel bigendian val with
  | Except.ok w => w
  | Except.error _ => 0

/-! ## Bit-level lemmas -/

theorem and_byte_mask (v k : Nat) : v &&& (255 <<< k) = ((v >>> k) % 256) <<< k := by
  apply Nat.eq_of_testBit_eq
  intro i
  have h255 : (255 : Nat) = 2 ^ 8 - 1 := by decide
  have h256 : (256 : Nat) = 2 ^ 8 := by decide
  rw [h255, h256]
  simp only [Nat.testBit_and, Nat.testBit_shiftLeft, Nat.testBit_shiftRight,
    Nat.testBit_mod_two_pow, Nat.testBit_two_pow_sub_one]
  by_cases hik : i ≥ k
  · have hki : k + (i - k) = i := by omega
    simp [hik, hki, Bool.and_comm]
  · simp [hik]

theorem and_ff (v : Nat) : v &&& 255 = v % 256 := by
  have h := and_byte_mask v 0
  simpa using h

theorem and_ff00 (v : Nat) : v &&& 65280 = (v / 256 % 256) * 256 := by
  have h := and_byte_mask v 8
  have e : (255 : Nat) <<< 8 = 65280 := by decide
  rw [e] at h
  rw [h, Nat.shiftLeft_eq, Nat.shiftRight_eq_div_pow]

theorem and_ff0000 (v : Nat) : v &&& 16711680 = (v / 65536 % 256) * 65536 := by
  have h := and_byte_mask v 16
  have e : (255 : Nat) <<< 16 = 16711680 := by decide
  rw [e] at h
  rw [h, Nat.shiftLeft_eq, Nat.shiftRight_eq_div_pow]

theorem and_ff000000 (v : Nat) : v &&& 4278190080 = (v / 16777216 % 256) * 16777216 := by
  have h := and_byte_mask v 24
  have e : (255 : Nat) <<< 24 = 4278190080 := by decide
  rw [e] at h
  rw [h, Nat.shiftLeft_eq, Nat.shiftRight_eq_div_pow]

/-- Bytes placed in disjoint positions: bitwise or is addition. -/
theorem or_pack (x3 x2 x1 x0 : Nat) (h2 : x2 < 256) (h1 : x1 < 256) (h0 : x0 < 256) :
    x3 * 16777216 ||| x2 * 65536 ||| x1 * 256 ||| x0
      = x3 * 16777216 + x2 * 65536 + x1 * 256 + x0 := by
  have e0 : x1 * 256 ||| x0 = x1 * 256 + x0 := by
    have h := Nat.mul_add_lt_is_or (show x0 < 2 ^ 8 by omega) x1
    rw [Nat.mul_comm] at h
    exact h.symm
  have e1 : x2 * 65536 ||| (x1 * 256 + x0) = x2 * 65536 + (x1 * 256 + x0) := by
    have h := Nat.mul_add_lt_is_or (show x1 * 256 + x0 < 2 ^ 16 by omega) x2
    rw [Nat.mul_comm] at h
    exact h.symm
  have e2 : x3 * 16777216 ||| (x2 * 65536 + (x1 * 256 + x0))
      = x3 * 16777216 + (x2 * 65536 + (x1 * 256 + x0)) := by
    have h := Nat.mul_add_lt_is_or (show x2 * 65536 + (x1 * 256 + x0) < 2 ^ 24 by omega) x3
    rw [Nat.mul_comm] at h
    exact h.symm
  rw [Nat.or_assoc, Nat.or_assoc, e0, e1, e2]
  omega

/-- Memory image of a word assembled from four bytes, either byte order. -/
theorem memBytes_pack (bigendian : Bool) (x3 x2 x1 x0 : Nat) (h3 : x3 < 256) (h2 : x2 < 256)
    (h1 : x1 < 256) (h0 : x0 < 256) :
    memBytes bigendian (x3 * 16777216 + x2 * 65536 + x1 * 256 + x0)
      = if bigendian then [x3, x2, x1, x0] else [x0, x1, x2, x3] := by
  have e24 : (x3 * 16777216 + x2 * 65536 + x1 * 256 + x0) >>> 24 % 256 = x3 := by
    rw [Nat.shiftRight_eq_div_pow]; omega
  have e16 : (x3 * 16777216 + x2 * 65536 + x1 * 256 + x0) >>> 16 % 256 = x2 := by
    rw [Nat.shiftRight_eq_div_pow]; omega
  have e8 : (x3 * 16777216 + x2 * 65536 + x1 * 256 + x0) >>> 8 % 256 = x1 := by
    rw [Nat.shiftRight_eq_div_pow]; omega
  have e0 : (x3 * 16777216 + x2 * 65536 + x1 * 256 + x0) % 256 = x0 := by omega
  unfold memBytes
  rw [e24, e16, e8, e0]

/-- Transparent branch (`case 0`). -/
theorem pixel_zero (dv : Nat → Nat → Except Fault Nat) (bigendian : Bool) (val : Nat)
    (h : alphaOf val = 0) :
    argb2rgba_pixel_with dv bigendian val = Except.ok 4294967295 := by
  unfold alphaOf at h
  simp [argb2rgba_pixel_with, u8, h]

/-- Opaque branch (`case 255`) in closed form. -/
theorem pixel_alpha255 (dv : Nat → Nat → Except Fault Nat) (bigendian : Bool) (val : Nat)
    (h : alphaOf val = 255) :
    argb2rgba_pixel_with dv bigendian val
      = Except.ok (if bigendian then
          redOf val * 16777216 + greenOf val * 65536 + blueOf val * 256 + 255
        else
          255 * 16777216 + blueOf val * 65536 + greenOf val * 256 + redOf val) := by
  unfold alphaOf at h
  have hv1 : u32 (u32 (val <<< 8) ||| 255)
      = redOf val * 16777216 + greenOf val * 65536 + blueOf val * 256 + 255 := by
    have hs : u32 (val <<< 8) = 2 ^ 8 * (val % 16777216) := by
      unfold u32; rw [Nat.shiftLeft_eq]; omega
    rw [hs, ← Nat.mul_add_lt_is_or (show 255 < 2 ^ 8 by decide)]
    unfold u32 redOf greenOf blueOf
    simp only [Nat.shiftRight_eq_div_pow]
    omega
  have hr : redOf val < 256 := Nat.mod_lt _ (by decide)
  have hg : greenOf val < 256 := Nat.mod_lt _ (by decide)
  have hb : blueOf val < 256 := Nat.mod_lt _ (by decide)
  cases bigendian with
  | true => simp [argb2rgba_pixel_with, u8, h, hv1]
  | false =>
    simp only [argb2rgba_pixel_with, u8, h, hv1]
    simp only [and_ff, and_ff00, and_ff0000, and_ff000000, Nat.shiftLeft_eq,
      Nat.shiftRight_eq_div_pow]
    have t0 : u32 ((redOf val * 16777216 + greenOf val * 65536 + blueOf val * 256 + 255) % 256
        * 2 ^ 24) = 255 * 16777216 := by unfold u32; omega
    have t1 : u32 ((redOf val * 16777216 + greenOf val * 65536 + blueOf val * 256 + 255) / 256
        % 256 * 256 * 2 ^ 8) = blueOf val * 65536 := by unfold u32; omega
    have t2 : (redOf val * 16777216 + greenOf val * 65536 + blueOf val * 256 + 255) / 65536
        % 256 * 65536 / 2 ^ 8 = greenOf val * 256 := by omega
    have t3 : (redOf val * 16777216 + greenOf val * 65536 + blueOf val * 256 + 255) / 16777216
        % 256 * 16777216 / 2 ^ 24 = redOf val := by omega
    rw [t0, t1, t2, t3, or_pack 255 _ _ _ hb hg hr]
    have hlt : 255 * 16777216 + blueOf val * 65536 + greenOf val * 256 + redOf val
        < 4294967296 := by omega
    simp [u32, Nat.mod_eq_of_lt hlt]

/-- General branch (`default`) in closed form. -/
theorem pixel_default (bigendian : Bool) (val : Nat)
    (h0 : alphaOf val ≠ 0) (h255 : alphaOf val ≠ 255) :
    argb2rgba_pixel bigendian val
      = Except.ok (if bigendian then
          unpremul (redOf val) (alphaOf val) * 16777216
            + unpremul (greenOf val) (alphaOf val) * 65536
            + unpremul (blueOf val) (alphaOf val) * 256 + alphaOf val
        else
          alphaOf val * 16777216 + unpremul (blueOf val) (alphaOf val) * 65536
            + unpremul (greenOf val) (alphaOf val) * 256
            + unpremul (redOf val) (alphaOf val)) := by
  have ha : alphaOf val < 256 := Nat.mod_lt _ (by decide)
  have hr : unpremul (redOf val) (alphaOf val) < 256 := Nat.mod_lt _ (by decide)
  have hg : unpremul (greenOf val) (alphaOf val) < 256 := Nat.mod_lt _ (by decide)
  have hb : unpremul (blueOf val) (alphaOf val) < 256 := Nat.mod_lt _ (by decide)
  have ea : u8 (val >>> 24) = alphaOf val := rfl
  have er : (val >>> 16) &&& 255 = redOf val := by rw [and_ff]; rfl
  have eg : (val >>> 8) &&& 255 = greenOf val := by rw [and_ff]; rfl
  have eb : (val >>> 0) &&& 255 = blueOf val := by rw [and_ff]; rfl
  simp only [argb2rgba_pixel, argb2rgba_pixel_with, ea, er, eg, eb, udiv, if_neg h0, if_neg h255]
  have fr : u8 (u32 (255 * redOf val) / alphaOf val) = unpremul (redOf val) (alphaOf val) := rfl
  have fg : u8 (u32 (255 * greenOf val) / alphaOf val)
      = unpremul (greenOf val) (alphaOf val) := rfl
  have fb : u8 (u32 (255 * blueOf val) / alphaOf val) = unpremul (blueOf val) (alphaOf val) := rfl
  rw [fr, fg, fb]
  simp only [Nat.shiftLeft_eq]
  cases bigendian with
  | true =>
    have e := or_pack (unpremul (redOf val) (alphaOf val)) _ _ _ hg hb ha
    norm_num at e ⊢
    rw [e]
    unfold u32
    omega
  | false =>
    have e := or_pack (alphaOf val) _ _ _ hb hg hr
    norm_num at e ⊢
    rw [e]
    unfold u32
    omega

/-- Inside the premultiplication invariant the quotient needs no narrowing. -/
theorem unpremul_of_le (c a : Nat) (ha : 0 < a) (ha2 : a < 256) (hc : c ≤ a) :
    unpremul c a = 255 * c / a ∧ 255 * c / a ≤ 255 := by
  have hq : 255 * c / a ≤ 255 := by
    apply Nat.div_le_of_le_mul
    calc 255 * c ≤ 255 * a := Nat.mul_le_mul_left _ hc
      _ = a * 255 := Nat.mul_comm _ _
  have hm : 255 * c < 4294967296 := by
    have : 255 * c ≤ 255 * a := Nat.mul_le_mul_left _ hc
    omega
  refine ⟨?_, hq⟩
  unfold unpremul u8 u32
  rw [Nat.mod_eq_of_lt hm, Nat.mod_eq_of_lt (by omega)]

/-! ## Buffer accesses -/

theorem readAt_append {α : Type} (l1 l2 : List α) (v : α) :
    readAt (l1 ++ v :: l2) l1.length = Except.ok v := by
  have h : (l1 ++ v :: l2)[l1.length]? = some v := by
    induction l1 with
    | nil => simp
    | cons x xs ih => simpa using ih
  unfold readAt
  rw [h]

theorem writeAt_append {α : Type} (l1 l2 : List α) (v w : α) :
    writeAt (l1 ++ v :: l2) l1.length w = Except.ok (l1 ++ w :: l2) := by
  simp [writeAt]

/-- The masks and shifts of `argb2float` select the red, green and blue bytes. -/
theorem float_channels (val : Nat) :
    (val &&& 0x00ff0000) >>> 16 = redOf val ∧ (val &&& 0x0000ff00) >>> 8 = greenOf val ∧
      val &&& 0x000000ff = blueOf val := by
  refine ⟨?_, ?_, ?_⟩
  · show (val &&& 16711680) >>> 16 = (val >>> 16) % 256
    rw [and_ff0000]
    simp only [Nat.shiftRight_eq_div_pow]
    omega
  · show (val &&& 65280) >>> 8 = (val >>> 8) % 256
    rw [and_ff00]
    simp only [Nat.shiftRight_eq_div_pow]
    omega
  · exact and_ff val

/-- One pixel of `argb2float` in terms of the channel bytes. -/
theorem argb2float_pixel_eq {F : Type} [NatCast F] [Div F] (val : Nat) :
    (argb2float_pixel val : F × F × F)
      = if alphaOf val = 0 then (((1 : Nat) : F), ((1 : Nat) : F), ((1 : Nat) : F))
        else (((redOf val : Nat) : F) / ((255 : Nat) : F),
              ((greenOf val : Nat) : F) / ((255 : Nat) : F),
              ((blueOf val : Nat) : F) / ((255 : Nat) : F)) := by
  obtain ⟨hr, hg, hb⟩ := float_channels val
  have ea : u8 (val >>> 24) = alphaOf val := rfl
  simp only [argb2float_pixel, ea, hr, hg, hb]

/-- Invariant of the loop of `argb2float`: with `done` pixels converted and
their `3 * done.length` floats in `pre`, running the remaining iterations leaves
the source as it was and replaces the rest of the tensor by the image of `todo`. -/
theorem argb2float_loop_spec {F : Type} [NatCast F] [Div F] (todo : List Nat) :
    ∀ (done : List Nat) (pre rest : List F), pre.length = done.length * 3 →
      rest.length = todo.length * 3 →
      argb2float_loop todo.length done.length (done ++ todo) (pre ++ rest)
        = Except.ok (done ++ todo, pre ++ floatImage todo) := by
  induction todo with
  | nil =>
    intro done pre rest _ hrest
    have : rest = [] := List.length_eq_zero.mp (by simpa using hrest)
    subst this
    simp [argb2float_loop, floatImage]
  | cons v vs ih =>
    intro done pre rest hpre hrest
    match rest, hrest with
    | [], hrest => simp only [List.length_cons, List.length_nil] at hrest; omega
    | [_], hrest => simp only [List.length_cons, List.length_nil] at hrest; omega
    | [_, _], hrest => simp only [List.length_cons, List.length_nil] at hrest; omega
    | r0 :: r1 :: r2 :: rest1, hrest =>
      have hrest1 : rest1.length = vs.length * 3 := by
        simp only [List.length_cons] at hrest
        omega
      have w1 : writeAt (pre ++ r0 :: r1 :: r2 :: rest1) (done.length * 3)
          (argb2float_pixel v : F × F × F).1
          = Except.ok (pre ++ (argb2float_pixel v : F × F × F).1 :: r1 :: r2 :: rest1) := by
        rw [← hpre]
        exact writeAt_append _ _ _ _
      have w2 : writeAt (pre ++ (argb2float_pixel v : F × F × F).1 :: r1 :: r2 :: rest1)
          (done.length * 3 + 1) (argb2float_pixel v : F × F × F).2.1
          = Except.ok (pre ++ (argb2float_pixel v : F × F × F).1
              :: (argb2float_pixel v : F × F × F).2.1 :: r2 :: rest1) := by
        have h := writeAt_append (pre ++ [(argb2float_pixel v : F × F × F).1]) (r2 :: rest1) r1
          (argb2float_pixel v : F × F × F).2.1
        simpa [hpre] using h
      have w3 : writeAt (pre ++ (argb2float_pixel v : F × F × F).1
              :: (argb2float_pixel v : F × F × F).2.1 :: r2 :: rest1)
          (done.length * 3 + 2) (argb2float_pixel v : F × F × F).2.2
          = Except.ok (pre ++ (argb2float_pixel v : F × F × F).1
              :: (argb2float_pixel v : F × F × F).2.1
              :: (argb2float_pixel v : F × F × F).2.2 :: rest1) := by
        have h := writeAt_append (pre ++ [(argb2float_pixel v : F × F × F).1,
          (argb2float_pixel v : F × F × F).2.1]) rest1 r2 (argb2float_pixel v : F × F × F).2.2
        simpa [hpre] using h
      have hnext := ih (done ++ [v]) (pre ++ [(argb2float_pixel v : F × F × F).1,
        (argb2float_pixel v : F × F × F).2.1, (argb2float_pixel v : F × F × F).2.2]) rest1
        (by simp [hpre]; omega) hrest1
      simp only [List.length_cons, argb2float_loop, readAt_append, w1, w2, w3]
      simpa [floatImage] using hnext

/-! ## The loop of `argb2rgba` -/

/-- Every pixel is converted: the switch never faults. -/
theorem pixel_total (bigendian : Bool) (val : Nat) :
    ∃ w, argb2rgba_pixel bigendian val = Except.ok w := by
  by_cases h0 : alphaOf val = 0
  · exact ⟨_, pixel_zero udiv bigendian val h0⟩
  · by_cases h255 : alphaOf val = 255
    · exact ⟨_, pixel_alpha255 udiv bigendian val h255⟩
    · exact ⟨_, pixel_default bigendian val h0 h255⟩

/-- The switch consults the division operator only for divisors in `1..254`. -/
theorem pixel_with_congr (dv : Nat → Nat → Except Fault Nat)
    (hdv : ∀ x a, 1 ≤ a → a ≤ 254 → dv x a = udiv x a) (bigendian : Bool) (val : Nat) :
    argb2rgba_pixel_with dv bigendian val = argb2rgba_pixel_with udiv bigendian val := by
  by_cases h0 : alphaOf val = 0
  · rw [pixel_zero dv bigendian val h0, pixel_zero udiv bigendian val h0]
  · by_cases h255 : alphaOf val = 255
    · rw [pixel_alpha255 dv bigendian val h255, pixel_alpha255 udiv bigendian val h255]
    · have ha : alphaOf val < 256 := Nat.mod_lt _ (by decide)
      have ea : u8 (val >>> 24) = alphaOf val := rfl
      have e : ∀ x, dv x (alphaOf val) = udiv x (alphaOf val) :=
        fun x => hdv x _ (by omega) (by omega)
      simp only [argb2rgba_pixel_with, ea, e]

theorem loop_congr (dv : Nat → Nat → Except Fault Nat)
    (hdv : ∀ x a, 1 ≤ a → a ≤ 254 → dv x a = udiv x a) (bigendian : Bool) (n : Nat) :
    ∀ (cur : Nat) (buf : List Nat),
      argb2rgba_loop dv bigendian n cur buf = argb2rgba_loop udiv bigendian n cur buf := by
  induction n with
  | zero => intro cur buf; rfl
  | succ n ih =>
    intro cur buf
    simp only [argb2rgba_loop, pixel_with_congr dv hdv, ih]

theorem loop_no_div_by_zero (bigendian : Bool) (n : Nat) :
    ∀ (cur : Nat) (buf : List Nat),
      argb2rgba_loop udiv bigendian n cur buf ≠ Except.error Fault.div_by_zero := by
  induction n with
  | zero => intro cur buf h; cases h
  | succ n ih =>
    intro cur buf
    unfold argb2rgba_loop
    cases hread : readAt buf cur with
    | error e =>
      unfold readAt at hread
      split at hread
      · cases hread
      · cases hread
        simp
    | ok val =>
      obtain ⟨w, hw⟩ := pixel_total bigendian val
      unfold argb2rgba_pixel at hw
      simp only [hw]
      cases hwrite : writeAt buf cur w with
      | error e =>
        unfold writeAt at hwrite
        split at hwrite
        · cases hwrite
        · cases hwrite
          simp
      | ok buf1 => exact ih _ _

theorem loop_returns (bigendian : Bool) (n : Nat) :
    ∀ (cur : Nat) (buf : List Nat), cur + n ≤ buf.length →
      ∃ out, argb2rgba_loop udiv bigendian n cur buf = Except.ok out ∧
        out.length = buf.length := by
  induction n with
  | zero => intro cur buf _; exact ⟨buf, rfl, rfl⟩
  | succ n ih =>
    intro cur buf hlen
    have hcur : cur < buf.length := by omega
    have hread : readAt buf cur = Except.ok buf[cur] := by
      simp [readAt, List.getElem?_eq_getElem hcur]
    obtain ⟨w, hw⟩ := pixel_total bigendian buf[cur]
    unfold argb2rgba_pixel at hw
    have hwrite : writeAt buf cur w = Except.ok (buf.set cur w) := by
      simp [writeAt, hcur]
    obtain ⟨out, hout, hl⟩ := ih (cur + 1) (buf.set cur w) (by simp; omega)
    refine ⟨out, ?_, by simpa using hl⟩
    simp only [argb2rgba_loop, hread, hw, hwrite, hout]

/-! ## Views -/

theorem wordsOfBytes_length (bigendian : Bool) :
    ∀ (n : Nat) (bytes : List Nat), bytes.length ≤ n →
      (wordsOfBytes bigendian bytes).length = bytes.length / 4 := by
  intro n
  induction n using Nat.strong_induction_on with
  | _ n ih =>
    intro bytes hn
    match bytes, hn with
    | [], _ => rfl
    | [_], _ => simp [wordsOfBytes]
    | [_, _], _ => simp [wordsOfBytes]
    | [_, _, _], _ => simp [wordsOfBytes]
    | b0 :: b1 :: b2 :: b3 :: rest, hn =>
      simp only [List.length_cons] at hn
      have h := ih rest.length (by omega) rest (le_refl _)
      simp only [wordsOfBytes, List.length_cons, h]
      omega

/-- An accepted view is converted: the call of `argb2rgba` inside the entry point
returns. -/
theorem entry_argb2rgba_returns (bigendian : Bool) (bytes : List Nat) :
    ∃ ws, argb2rgba bigendian (wordsOfBytes bigendian bytes) (bytes.length / 4)
      = Except.ok ws := by
  have hl := wordsOfBytes_length bigendian bytes.length bytes (le_refl _)
  obtain ⟨ws, hws, _⟩ :=
    loop_returns bigendian (bytes.length / 4) 0 (wordsOfBytes bigendian bytes) (by omega)
  exact ⟨ws, hws⟩

/-- General branch inside the premultiplication invariant: memory bytes and word. -/
theorem pixel_default_bytes (bigendian : Bool) (val : Nat)
    (ha0 : 0 < alphaOf val) (ha : alphaOf val < 255)
    (hr : redOf val ≤ alphaOf val) (hg : greenOf val ≤ alphaOf val)
    (hb : blueOf val ≤ alphaOf val) :
    ∃ w, argb2rgba_pixel bigendian val = Except.ok w ∧
      memBytes bigendian w
        = [255 * redOf val / alphaOf val, 255 * greenOf val / alphaOf val,
           255 * blueOf val / alphaOf val, alphaOf val] ∧
      255 * redOf val / alphaOf val ≤ 255 ∧
      255 * greenOf val / alphaOf val ≤ 255 ∧
      255 * blueOf val / alphaOf val ≤ 255 ∧
      (bigendian = false →
        w = (alphaOf val <<< 24 ||| (255 * blueOf val / alphaOf val) <<< 16
              ||| (255 * greenOf val / alphaOf val) <<< 8
              ||| (255 * redOf val / alphaOf val))) := by
  obtain ⟨er, hR⟩ := unpremul_of_le (redOf val) (alphaOf val) ha0 (by omega) hr
  obtain ⟨eg, hG⟩ := unpremul_of_le (greenOf val) (alphaOf val) ha0 (by omega) hg
  obtain ⟨eb, hB⟩ := unpremul_of_le (blueOf val) (alphaOf val) ha0 (by omega) hb
  have hA : alphaOf val < 256 := by omega
  have hp := pixel_default bigendian val (by omega) (by omega)
  rw [er, eg, eb] at hp
  cases bigendian with
  | true =>
    refine ⟨_, hp, ?_, hR, hG, hB, by simp⟩
    have hm := memBytes_pack true _ _ _ _ (Nat.lt_succ_of_le hR) (Nat.lt_succ_of_le hG)
      (Nat.lt_succ_of_le hB) hA
    simpa using hm
  | false =>
    refine ⟨_, hp, ?_, hR, hG, hB, ?_⟩
    · have hm := memBytes_pack false _ _ _ _ hA (Nat.lt_succ_of_le hB) (Nat.lt_succ_of_le hG)
        (Nat.lt_succ_of_le hR)
      simpa using hm
    · intro _
      have e := or_pack (alphaOf val) _ _ _ (Nat.lt_succ_of_le hB) (Nat.lt_succ_of_le hG)
        (Nat.lt_succ_of_le hR)
      simp only [Nat.shiftLeft_eq]
      norm_num at e ⊢
      rw [e]

/-- Opaque branch: memory bytes on either build. -/
theorem pixel_opaque_bytes (bigendian : Bool) (val : Nat) (ha : alphaOf val = 255) :
    ∃ w, argb2rgba_pixel bigendian val = Except.ok w ∧
      memBytes bigendian w = [redOf val, greenOf val, blueOf val, 255] := by
  have hr : redOf val < 256 := Nat.mod_lt _ (by decide)
  have hg : greenOf val < 256 := Nat.mod_lt _ (by decide)
  have hb : blueOf val < 256 := Nat.mod_lt _ (by decide)
  have hp := pixel_alpha255 udiv bigendian val ha
  cases bigendian with
  | true =>
    refine ⟨_, hp, ?_⟩
    have hm := memBytes_pack true _ _ _ _ hr hg hb (show 255 < 256 by decide)
    simpa using hm
  | false =>
    refine ⟨_, hp, ?_⟩
    have hm := memBytes_pack false _ _ _ _ (show 255 < 256 by decide) hb hg hr
    simpa using hm

/-! ## Pixel-wise view of `argb2rgba` -/

/-- Outside alpha 0 and 255 the switch runs the default branch. -/
theorem pixel_eq_default_branch (dv : Nat → Nat → Except Fault Nat) (bigendian : Bool)
    (val : Nat) (h0 : alphaOf val ≠ 0) (h255 : alphaOf val ≠ 255) :
    argb2rgba_pixel_with dv bigendian val
      = argb2rgba_default_branch dv bigendian val (alphaOf val) := by
  have ea : u8 (val >>> 24) = alphaOf val := rfl
  simp only [argb2rgba_pixel_with, argb2rgba_default_branch, ea, if_neg h0, if_neg h255]

theorem pixel_eq_word (bigendian : Bool) (val : Nat) :
    argb2rgba_pixel bigendian val = Except.ok (argb2rgba_word bigendian val) := by
  obtain ⟨w, hw⟩ := pixel_total bigendian val
  simp only [argb2rgba_word, hw]

/-- Invariant of the loop of `argb2rgba`: with the pixels of `done` already
stored, the remaining iterations replace each pixel of `todo` by its word. -/
theorem argb2rgba_loop_map (bigendian : Bool) (todo : List Nat) :
    ∀ done : List Nat,
      argb2rgba_loop udiv bigendian todo.length done.length (done ++ todo)
        = Except.ok (done ++ todo.map (argb2rgba_word bigendian)) := by
  induction todo with
  | nil => intro done; simp [argb2rgba_loop]
  | cons v vs ih =>
    intro done
    have hw : argb2rgba_pixel_with udiv bigendian v
        = Except.ok (argb2rgba_word bigendian v) := pixel_eq_word bigendian v
    have hnext := ih (done ++ [argb2rgba_word bigendian v])
    simp only [List.length_cons, argb2rgba_loop, readAt_append, hw, writeAt_append]
    simpa using hnext

theorem argb2rgba_eq_map (bigendian : Bool) (buf : List Nat) :
    argb2rgba bigendian buf buf.length = Except.ok (buf.map (argb2rgba_word bigendian)) := by
  have h := argb2rgba_loop_map bigendian buf []
  simpa [argb2rgba, argb2rgba_with] using h

/-- The narrowed quotient the default branch stores for a channel byte. -/
theorem unpremul_eq (c a : Nat) (hc : c < 256) : unpremul c a = (255 * c / a) % 256 := by
  have hm : 255 * c < 4294967296 := by omega
  unfold unpremul u8 u32
  rw [Nat.mod_eq_of_lt hm]

/-- General branch for any channel bytes: the bytes left in memory. -/
theorem pixel_default_bytes_any (bigendian : Bool) (val : Nat)
    (h0 : alphaOf val ≠ 0) (h255 : alphaOf val ≠ 255) :
    ∃ w, argb2rgba_pixel bigendian val = Except.ok w ∧
      memBytes bigendian w
        = [(255 * redOf val / alphaOf val) % 256, (255 * greenOf val / alphaOf val) % 256,
           (255 * blueOf val / alphaOf val) % 256, alphaOf val] := by
  have ha : alphaOf val < 256 := Nat.mod_lt _ (by decide)
  have hr : unpremul (redOf val) (alphaOf val) < 256 := Nat.mod_lt _ (by decide)
  have hg : unpremul (greenOf val) (alphaOf val) < 256 := Nat.mod_lt _ (by decide)
  have hb : unpremul (blueOf val) (alphaOf val) < 256 := Nat.mod_lt _ (by decide)
  have er := unpremul_eq (redOf val) (alphaOf val) (Nat.mod_lt _ (by decide))
  have eg := unpremul_eq (greenOf val) (alphaOf val) (Nat.mod_lt _ (by decide))
  have eb := unpremul_eq (blueOf val) (alphaOf val) (Nat.mod_lt _ (by decide))
  have hp := pixel_default bigendian val h0 h255
  cases bigendian with
  | true =>
    refine ⟨_, hp, ?_⟩
    have hm := memBytes_pack true _ _ _ _ hr hg hb ha
    rw [← er, ← eg, ← eb]
    simpa using hm
  | false =>
    refine ⟨_, hp, ?_⟩
    have hm := memBytes_pack false _ _ _ _ ha hb hg hr
    rw [← er, ← eg, ← eb]
    simpa using hm

/-- The default branch in closed form, for any non-zero alpha byte. -/
theorem default_branch_closed (bigendian : Bool) (val a : Nat) (h0 : a ≠ 0) (ha : a < 256) :
    argb2rgba_default_branch udiv bigendian val a
      = Except.ok (if bigendian then
          unpremul (redOf val) a * 16777216 + unpremul (greenOf val) a * 65536
            + unpremul (blueOf val) a * 256 + a
        else
          a * 16777216 + unpremul (blueOf val) a * 65536 + unpremul (greenOf val) a * 256
            + unpremul (redOf val) a) := by
  have hr : unpremul (redOf val) a < 256 := Nat.mod_lt _ (by decide)
  have hg : unpremul (greenOf val) a < 256 := Nat.mod_lt _ (by decide)
  have hb : unpremul (blueOf val) a < 256 := Nat.mod_lt _ (by decide)
  have er : (val >>> 16) &&& 255 = redOf val := by rw [and_ff]; rfl
  have eg : (val >>> 8) &&& 255 = greenOf val := by rw [and_ff]; rfl
  have eb : (val >>> 0) &&& 255 = blueOf val := by rw [and_ff]; rfl
  simp only [argb2rgba_default_branch, er, eg, eb, udiv, if_neg h0]
  have fr : u8 (u32 (255 * redOf val) / a) = unpremul (redOf val) a := rfl
  have fg : u8 (u32 (255 * greenOf val) / a) = unpremul (greenOf val) a := rfl
  have fb : u8 (u32 (255 * blueOf val) / a) = unpremul (blueOf val) a := rfl
  rw [fr, fg, fb]
  simp only [Nat.shiftLeft_eq]
  cases bigendian with
  | true =>
    have e := or_pack (unpremul (redOf val) a) _ _ _ hg hb ha
    norm_num at e ⊢
    rw [e]
    unfold u32
    omega
  | false =>
    have e := or_pack a _ _ _ hb hg hr
    norm_num at e ⊢
    rw [e]
    unfold u32
    omega

/-- Dividing by alpha 255 gives the channel back. -/
theorem unpremul_255 (c : Nat) (hc : c < 256) : unpremul c 255 = c := by
  rw [unpremul_eq c 255 hc]
  omega

/-! ## Claims -/

/-- C1. `argb2rgba`, general case: for a pixel `val` whose alpha `a` satisfies
`0 < a < 255` and whose premultiplied channels are each at most `a`, the call
returns a word whose bytes in memory order are `[R, G, B, a]` with
`R = 255 * r / a`, `G = 255 * g / a`, `B = 255 * b / a` (truncating division),
each of them at most 255; on the little-endian build the word is
`a << 24 | B << 16 | G << 8 | R`. Both builds are covered. -/
theorem argb2rgba_general_case (bigendian : Bool) (val : Nat)
    (ha0 : 0 < alphaOf val) (ha : alphaOf val < 255)
    (hr : redOf val ≤ alphaOf val) (hg : greenOf val ≤ alphaOf val)
    (hb : blueOf val ≤ alphaOf val) :
    ∃ w, argb2rgba_pixel bigendian val = Except.ok w ∧
      memBytes bigendian w
        = [255 * redOf val / alphaOf val, 255 * greenOf val / alphaOf val,
           255 * blueOf val / alphaOf val, alphaOf val] ∧
      255 * redOf val / alphaOf val ≤ 255 ∧
      255 * greenOf val / alphaOf val ≤ 255 ∧
      255 * blueOf val / alphaOf val ≤ 255 ∧
      (bigendian = false →
        w = (alphaOf val <<< 24 ||| (255 * blueOf val / alphaOf val) <<< 16
              ||| (255 * greenOf val / alphaOf val) <<< 8
              ||| (255 * redOf val / alphaOf val))) :=
  pixel_default_bytes bigendian val ha0 ha hr hg hb

/-- Witness of C1 at the pixel `0x80804040` (alpha 128, red 128, green 64, blue 64):
the bytes left in memory are `[255, 127, 127, 128]`. -/
theorem argb2rgba_general_case_witness :
    ∃ w, argb2rgba_pixel false 0x80804040 = Except.ok w ∧
      memBytes false w = [255, 127, 127, 128] := by
  obtain ⟨w, hw, hbytes, _⟩ :=
    argb2rgba_general_case false 0x80804040 (by decide) (by decide) (by decide) (by decide)
      (by decide)
  exact ⟨w, hw, hbytes.trans (by decide)⟩

/-- C2. `argb2rgba`, opaque case: for a pixel whose alpha is 255 and any channels
`r, g, b`, the call returns a word whose bytes read sequentially from memory are
`[r, g, b, 0xFF]`, on the little-endian build and on the big-endian build. -/
theorem argb2rgba_opaque_case (bigendian : Bool) (val : Nat) (ha : alphaOf val = 255) :
    ∃ w, argb2rgba_pixel bigendian val = Except.ok w ∧
      memBytes bigendian w = [redOf val, greenOf val, blueOf val, 255] :=
  pixel_opaque_bytes bigendian val ha

/-- Witness of C2 at the pixel `0xFF102030`: bytes `[0x10, 0x20, 0x30, 0xFF]` on
both builds. -/
theorem argb2rgba_opaque_case_witness :
    (∃ w, argb2rgba_pixel false 0xFF102030 = Except.ok w ∧
      memBytes false w = [0x10, 0x20, 0x30, 0xFF]) ∧
    (∃ w, argb2rgba_pixel true 0xFF102030 = Except.ok w ∧
      memBytes true w = [0x10, 0x20, 0x30, 0xFF]) := by
  obtain ⟨w, hw, hbytes⟩ := argb2rgba_opaque_case false 0xFF102030 (by decide)
  obtain ⟨v, hv, hbytes2⟩ := argb2rgba_opaque_case true 0xFF102030 (by decide)
  exact ⟨⟨w, hw, hbytes.trans (by decide)⟩, ⟨v, hv, hbytes2.trans (by decide)⟩⟩

/-- C3. `argb2rgba`, transparent case: for a pixel whose alpha byte is 0, whatever
its low 24 bits, the word written is exactly `0xFFFFFFFF`, whose four bytes in
memory are all `0xFF`; this holds on both builds. -/
theorem argb2rgba_transparent_case (bigendian : Bool) (val : Nat) (ha : alphaOf val = 0) :
    argb2rgba_pixel bigendian val = Except.ok 0xFFFFFFFF ∧
      memBytes bigendian 0xFFFFFFFF = [0xFF, 0xFF, 0xFF, 0xFF] := by
  refine ⟨pixel_zero udiv bigendian val ha, ?_⟩
  cases bigendian <;> decide

/-- Witness of C3 at the pixel `0x00ABCDEF` (alpha 0, low 24 bits arbitrary). -/
theorem argb2rgba_transparent_case_witness :
    argb2rgba_pixel false 0x00ABCDEF = Except.ok 0xFFFFFFFF ∧
      memBytes false 0xFFFFFFFF = [0xFF, 0xFF, 0xFF, 0xFF] :=
  argb2rgba_transparent_case false 0x00ABCDEF (by decide)

/-- C5. Round trip of `argb2rgba`: for a pixel with alpha `a` in `1..255` whose
premultiplied channels are each at most `a`, the call returns a word with memory
bytes `[sr, sg, sb, a]`, and re-premultiplying each straight channel with
truncation, `s * a / 255`, gives a value that differs from the original
premultiplied channel by at most 1. -/
theorem argb2rgba_round_trip (bigendian : Bool) (val : Nat)
    (ha0 : 1 ≤ alphaOf val)
    (hr : redOf val ≤ alphaOf val) (hg : greenOf val ≤ alphaOf val)
    (hb : blueOf val ≤ alphaOf val) :
    ∃ w sr sg sb, argb2rgba_pixel bigendian val = Except.ok w ∧
      memBytes bigendian w = [sr, sg, sb, alphaOf val] ∧
      (sr * alphaOf val / 255 ≤ redOf val + 1 ∧ redOf val ≤ sr * alphaOf val / 255 + 1) ∧
      (sg * alphaOf val / 255 ≤ greenOf val + 1 ∧ greenOf val ≤ sg * alphaOf val / 255 + 1) ∧
      (sb * alphaOf val / 255 ≤ blueOf val + 1 ∧ blueOf val ≤ sb * alphaOf val / 255 + 1) := by
  have hA : alphaOf val < 256 := Nat.mod_lt _ (by decide)
  by_cases h255 : alphaOf val = 255
  · obtain ⟨w, hw, hbytes⟩ := pixel_opaque_bytes bigendian val h255
    refine ⟨w, redOf val, greenOf val, blueOf val, hw, ?_, ?_, ?_, ?_⟩
    · rw [hbytes, h255]
    all_goals rw [h255]; omega
  · obtain ⟨w, hw, hbytes, -⟩ :=
      pixel_default_bytes bigendian val (by omega) (by omega) hr hg hb
    have key : ∀ c, c ≤ alphaOf val →
        (255 * c / alphaOf val) * alphaOf val / 255 ≤ c + 1 ∧
          c ≤ (255 * c / alphaOf val) * alphaOf val / 255 + 1 := by
      intro c _
      have h1 := Nat.div_add_mod (255 * c) (alphaOf val)
      have h2 : 255 * c % alphaOf val < alphaOf val := Nat.mod_lt _ (by omega)
      rw [Nat.mul_comm (alphaOf val)] at h1
      generalize 255 * c / alphaOf val * alphaOf val = t at h1 ⊢
      omega
    exact ⟨w, _, _, _, hw, hbytes, key _ hr, key _ hg, key _ hb⟩

/-- Witness of C5 at the pixel `0x80804040`. -/
theorem argb2rgba_round_trip_witness :
    ∃ w sr sg sb, argb2rgba_pixel false 0x80804040 = Except.ok w ∧
      memBytes false w = [sr, sg, sb, 128] ∧
      (sr * 128 / 255 ≤ 128 + 1 ∧ 128 ≤ sr * 128 / 255 + 1) ∧
      (sg * 128 / 255 ≤ 64 + 1 ∧ 64 ≤ sg * 128 / 255 + 1) ∧
      (sb * 128 / 255 ≤ 64 + 1 ∧ 64 ≤ sb * 128 / 255 + 1) :=
  argb2rgba_round_trip false 0x80804040 (by decide) (by decide) (by decide) (by decide)

/-- C4. `argb2float`, per pixel, for any float arithmetic `F`: when alpha is 0 the
triple written is `(1, 1, 1)`; otherwise it is `(r / 255, g / 255, b / 255)`
computed from the premultiplied channel bytes, alpha taking no part, so that two
pixels with equal `r, g, b` and non-zero alphas give the same triple. -/
theorem argb2float_pixel_spec {F : Type} [NatCast F] [Div F] (val : Nat) :
    (alphaOf val = 0 →
      (argb2float_pixel val : F × F × F) = (((1 : Nat) : F), ((1 : Nat) : F), ((1 : Nat) : F))) ∧
    (alphaOf val ≠ 0 →
      (argb2float_pixel val : F × F × F)
        = (((redOf val : Nat) : F) / ((255 : Nat) : F),
           ((greenOf val : Nat) : F) / ((255 : Nat) : F),
           ((blueOf val : Nat) : F) / ((255 : Nat) : F))) ∧
    (∀ val2, alphaOf val ≠ 0 → alphaOf val2 ≠ 0 → redOf val2 = redOf val →
      greenOf val2 = greenOf val → blueOf val2 = blueOf val →
      (argb2float_pixel val2 : F × F × F) = argb2float_pixel val) := by
  refine ⟨?_, ?_, ?_⟩
  · intro h
    rw [argb2float_pixel_eq, if_pos h]
  · intro h
    rw [argb2float_pixel_eq, if_neg h]
  · intro val2 h h2 er eg eb
    rw [argb2float_pixel_eq, argb2float_pixel_eq, if_neg h, if_neg h2, er, eg, eb]

/-- Witness of C4 with exact rational arithmetic: `0x80804040` gives
`(128/255, 64/255, 64/255)`, the same as `0x40804040`, and `0x00000000` gives
`(1, 1, 1)`. -/
theorem argb2float_pixel_spec_witness :
    (argb2float_pixel 0x80804040 : ℚ × ℚ × ℚ) = (128 / 255, 64 / 255, 64 / 255) ∧
    (argb2float_pixel 0x40804040 : ℚ × ℚ × ℚ) = argb2float_pixel 0x80804040 ∧
    (argb2float_pixel 0x00000000 : ℚ × ℚ × ℚ) = (1, 1, 1) := by
  have h1 := (argb2float_pixel_spec (F := ℚ) 0x80804040).2.1 (by decide)
  have h2 := (argb2float_pixel_spec (F := ℚ) 0x80804040).2.2 0x40804040 (by decide) (by decide)
    (by decide) (by decide) (by decide)
  have h3 := (argb2float_pixel_spec (F := ℚ) 0x00000000).1 (by decide)
  have e1 : redOf 0x80804040 = 128 := by decide
  have e2 : greenOf 0x80804040 = 64 := by decide
  have e3 : blueOf 0x80804040 = 64 := by decide
  rw [e1, e2, e3] at h1
  refine ⟨?_, h2, ?_⟩
  · rw [h1]; simp
  · rw [h3]; simp

/-- C9. Range of `argb2float`: for every input word, each of the three output
channels, as the exact rational `c / 255` or `1`, lies in `[0, 1]`. -/
theorem argb2float_range (val : Nat) :
    0 ≤ (argb2float_pixel val : ℚ × ℚ × ℚ).1 ∧ (argb2float_pixel val : ℚ × ℚ × ℚ).1 ≤ 1 ∧
    0 ≤ (argb2float_pixel val : ℚ × ℚ × ℚ).2.1 ∧ (argb2float_pixel val : ℚ × ℚ × ℚ).2.1 ≤ 1 ∧
    0 ≤ (argb2float_pixel val : ℚ × ℚ × ℚ).2.2 ∧ (argb2float_pixel val : ℚ × ℚ × ℚ).2.2 ≤ 1 := by
  have key : ∀ c : Nat, c < 256 → 0 ≤ ((c : Nat) : ℚ) / ((255 : Nat) : ℚ) ∧
      ((c : Nat) : ℚ) / ((255 : Nat) : ℚ) ≤ 1 := by
    intro c hc
    have h255 : ((255 : Nat) : ℚ) = 255 := by norm_num
    rw [h255]
    constructor
    · positivity
    · rw [div_le_one (by norm_num)]
      have : c ≤ 255 := by omega
      exact_mod_cast this
  have hr : redOf val < 256 := Nat.mod_lt _ (by decide)
  have hg : greenOf val < 256 := Nat.mod_lt _ (by decide)
  have hb : blueOf val < 256 := Nat.mod_lt _ (by decide)
  rw [argb2float_pixel_eq]
  by_cases h : alphaOf val = 0
  · rw [if_pos h]; norm_num
  · rw [if_neg h]
    exact ⟨(key _ hr).1, (key _ hr).2, (key _ hg).1, (key _ hg).2, (key _ hb).1, (key _ hb).2⟩

/-- C8. Frame and full overwrite of `argb2float`: for a source of `n` pixels and
a destination of exactly `3 * n` floats, the call returns, the source is
unchanged, the destination has `3 * n` elements and is the image of the source
alone, so any other destination of `3 * n` floats ends up identical. -/
theorem argb2float_frame_overwrite {F : Type} [NatCast F] [Div F] (buf : List Nat)
    (tensor : List F) (hlen : tensor.length = 3 * buf.length) :
    ∃ out, argb2float buf tensor buf.length = Except.ok (buf, out) ∧
      out.length = 3 * buf.length ∧ out = floatImage buf ∧
      (∀ tensor2 : List F, tensor2.length = 3 * buf.length →
        argb2float buf tensor2 buf.length = Except.ok (buf, out)) := by
  have run : ∀ t : List F, t.length = 3 * buf.length →
      argb2float buf t buf.length = Except.ok (buf, floatImage buf) := by
    intro t ht
    have h := argb2float_loop_spec buf [] [] t rfl (by omega)
    simpa [argb2float] using h
  have hl : ∀ l : List Nat, (floatImage l : List F).length = 3 * l.length := by
    intro l
    induction l with
    | nil => rfl
    | cons v vs ih => simp only [floatImage, List.length_cons, ih]; omega
  exact ⟨floatImage buf, run tensor hlen, hl buf, rfl, run⟩

/-- Witness of C8: two pixels, destination of six floats (exact rationals). -/
theorem argb2float_frame_overwrite_witness :
    ∃ out, argb2float [0x80804040, 0x00000000] [(7 : ℚ), 7, 7, 7, 7, 7] 2
        = Except.ok ([0x80804040, 0x00000000], out) ∧
      out.length = 3 * 2 ∧ out = floatImage [0x80804040, 0x00000000] ∧
      (∀ tensor2 : List ℚ, tensor2.length = 3 * 2 →
        argb2float [0x80804040, 0x00000000] tensor2 2
          = Except.ok ([0x80804040, 0x00000000], out)) :=
  argb2float_frame_overwrite [0x80804040, 0x00000000] [(7 : ℚ), 7, 7, 7, 7, 7] rfl

/-- C10. No division by zero in `argb2rgba`: for every buffer and length the call
never ends in the division fault; every pixel value is converted; when `len` is
within the buffer the call returns a buffer of the same length; and the run is
the same for any division operator that agrees with the division of C on the
divisors `1..254`, so the division is only ever executed with alpha in `1..254`. -/
theorem argb2rgba_no_division_by_zero (bigendian : Bool) (buf : List Nat) (len : Nat) :
    argb2rgba bigendian buf len ≠ Except.error Fault.div_by_zero ∧
    (∀ val, ∃ w, argb2rgba_pixel bigendian val = Except.ok w) ∧
    (len ≤ buf.length →
      ∃ out, argb2rgba bigendian buf len = Except.ok out ∧ out.length = buf.length) ∧
    (∀ dv : Nat → Nat → Except Fault Nat,
      (∀ x a, 1 ≤ a → a ≤ 254 → dv x a = udiv x a) →
      argb2rgba_with dv bigendian buf len = argb2rgba bigendian buf len ∧
        ∀ val, argb2rgba_pixel_with dv bigendian val = argb2rgba_pixel bigendian val) := by
  refine ⟨loop_no_div_by_zero bigendian len 0 buf, pixel_total bigendian, ?_, ?_⟩
  · intro h
    exact loop_returns bigendian len 0 buf (by omega)
  · intro dv hdv
    exact ⟨loop_congr dv hdv bigendian len 0 buf, pixel_with_congr dv hdv bigendian⟩

/-- Witness of C10: a buffer holding each kind of alpha is converted without a
fault, also by a division operator that refuses every divisor outside `1..254`. -/
theorem argb2rgba_no_division_by_zero_witness :
    argb2rgba false [0x80804040, 0x00ABCDEF, 0xFF102030] 3
        = Except.ok [0x807F7FFF, 0xFFFFFFFF, 0xFF302010] ∧
    argb2rgba_with
        (fun x a => if 1 ≤ a ∧ a ≤ 254 then Except.ok (x / a) else Except.error Fault.div_by_zero)
        false [0x80804040, 0x00ABCDEF, 0xFF102030] 3
      = Except.ok [0x807F7FFF, 0xFFFFFFFF, 0xFF302010] := by
  have h := (argb2rgba_no_division_by_zero false [0x80804040, 0x00ABCDEF, 0xFF102030] 3).2.2.2
    (fun x a => if 1 ≤ a ∧ a ≤ 254 then Except.ok (x / a) else Except.error Fault.div_by_zero)
    (by
      intro x a h1 h2
      have h0 : a ≠ 0 := by omega
      simp [udiv, h1, h2, h0])
  have hv : argb2rgba false [0x80804040, 0x00ABCDEF, 0xFF102030] 3
      = Except.ok [0x807F7FFF, 0xFFFFFFFF, 0xFF302010] := by rfl
  exact ⟨hv, h.1.trans hv⟩

/-- C6. Validation in `_convert_argb2rgba`: the call returns `Py_None` exactly
when the view is contiguous, writable, of byte length divisible by 4 and of item
size 4; otherwise it raises the `ValueError` of the first check that fails, in
the order not contiguous, not writable, invalid size, invalid item size, and
the view after the call is the view before it. -/
theorem convert_argb2rgba_validation (bigendian : Bool) (view : Py_buffer Nat) :
    ((∃ view2, _convert_argb2rgba bigendian view = Except.ok (PyResult.Py_None, view2)) ↔
      (view.contiguous = true ∧ view.readonly = false ∧ byteLen view % 4 = 0 ∧
        view.itemsize = 4)) ∧
    (view.contiguous = false →
      _convert_argb2rgba bigendian view
        = Except.ok (PyResult.ValueError "Argument is not contiguous", view)) ∧
    (view.contiguous = true → view.readonly = true →
      _convert_argb2rgba bigendian view
        = Except.ok (PyResult.ValueError "Argument is not writable", view)) ∧
    (view.contiguous = true → view.readonly = false → byteLen view % 4 ≠ 0 →
      _convert_argb2rgba bigendian view
        = Except.ok (PyResult.ValueError "Argument has invalid size", view)) ∧
    (view.contiguous = true → view.readonly = false → byteLen view % 4 = 0 →
      view.itemsize ≠ 4 →
      _convert_argb2rgba bigendian view
        = Except.ok (PyResult.ValueError "Argument has invalid item size", view)) := by
  have e1 : view.contiguous = false →
      _convert_argb2rgba bigendian view
        = Except.ok (PyResult.ValueError "Argument is not contiguous", view) := by
    intro hc
    simp [_convert_argb2rgba, hc]
  have e2 : view.contiguous = true → view.readonly = true →
      _convert_argb2rgba bigendian view
        = Except.ok (PyResult.ValueError "Argument is not writable", view) := by
    intro hc hr
    simp [_convert_argb2rgba, hc, hr]
  have e3 : view.contiguous = true → view.readonly = false → byteLen view % 4 ≠ 0 →
      _convert_argb2rgba bigendian view
        = Except.ok (PyResult.ValueError "Argument has invalid size", view) := by
    intro hc hr hl
    simp [_convert_argb2rgba, hc, hr, hl]
  have e4 : view.contiguous = true → view.readonly = false → byteLen view % 4 = 0 →
      view.itemsize ≠ 4 →
      _convert_argb2rgba bigendian view
        = Except.ok (PyResult.ValueError "Argument has invalid item size", view) := by
    intro hc hr hl hi
    simp [_convert_argb2rgba, hc, hr, hl, hi]
  refine ⟨⟨?_, ?_⟩, e1, e2, e3, e4⟩
  · rintro ⟨view2, h⟩
    cases hc : view.contiguous with
    | false => rw [e1 hc] at h; cases h
    | true =>
      cases hr : view.readonly with
      | true => rw [e2 hc hr] at h; cases h
      | false =>
        by_cases hl : byteLen view % 4 = 0
        · by_cases hi : view.itemsize = 4
          · exact ⟨rfl, rfl, hl, hi⟩
          · rw [e4 hc hr hl hi] at h; cases h
        · rw [e3 hc hr hl] at h; cases h
  · rintro ⟨hc, hr, hl, hi⟩
    obtain ⟨ws, hws⟩ := entry_argb2rgba_returns bigendian view.buf
    refine ⟨Py_buffer.mk (bytesOfWords bigendian ws ++ view.buf.drop (4 * (byteLen view / 4)))
      view.itemsize view.readonly view.contiguous, ?_⟩
    simp only [byteLen] at hl ⊢
    simp [_convert_argb2rgba, hc, hr, hl, hi, byteLen, hws]

/-- Witness of C6: a contiguous writable view of 5 bytes is rejected with the
invalid-size error and is unchanged. -/
theorem convert_argb2rgba_validation_witness :
    _convert_argb2rgba false ⟨[0x40, 0x40, 0x80, 0x80, 0x01], 1, false, true⟩
      = Except.ok (PyResult.ValueError "Argument has invalid size",
          ⟨[0x40, 0x40, 0x80, 0x80, 0x01], 1, false, true⟩) :=
  (convert_argb2rgba_validation false ⟨[0x40, 0x40, 0x80, 0x80, 0x01], 1, false, true⟩).2.2.2.1
    rfl rfl (by decide)

/-- C7 (evaluation of the code). `_convert_argb2float` makes no comparison between
the destination length and the source length.  A source of one pixel with a
destination of six floats (two triples) passes every check: the call returns
`Py_None` and has overwritten the first three floats.  A source of two pixels
with a destination of three floats (one triple) passes every check as well, and
the conversion then writes past the end of the destination. -/
theorem convert_argb2float_size_mismatch_accepted :
    _convert_argb2float false ⟨[0x40, 0x40, 0x80, 0x80], 4, true, true⟩
        ⟨[(0 : ℚ), 0, 0, 0, 0, 0], 4, false, true⟩
      = Except.ok (PyResult.Py_None, ⟨[0x40, 0x40, 0x80, 0x80], 4, true, true⟩,
          ⟨[128 / 255, 64 / 255, 64 / 255, 0, 0, 0], 4, false, true⟩) ∧
    _convert_argb2float false
        ⟨[0x40, 0x40, 0x80, 0x80, 0x40, 0x40, 0x80, 0x80], 4, true, true⟩
        ⟨[(0 : ℚ), 0, 0], 4, false, true⟩
      = Except.error Fault.out_of_bounds := by
  constructor <;> rfl

/-- C11. `argb2rgba` is a length-preserving pixel-wise map: on a buffer of `n`
pixels the call returns a buffer of `n` pixels whose `i`-th pixel is the
conversion of the `i`-th input pixel alone; hence converting a concatenation
gives the concatenation of the conversions, and changing input pixel `j` leaves
every output pixel `i ≠ j` as it was. -/
theorem argb2rgba_pixelwise (bigendian : Bool) (buf : List Nat) :
    ∃ out, argb2rgba bigendian buf buf.length = Except.ok out ∧
      out.length = buf.length ∧
      (∀ (i : Nat) (v : Nat), buf[i]? = some v →
        ∃ w, argb2rgba_pixel bigendian v = Except.ok w ∧ out[i]? = some w) ∧
      (∀ buf2 out2, argb2rgba bigendian buf2 buf2.length = Except.ok out2 →
        argb2rgba bigendian (buf ++ buf2) (buf ++ buf2).length = Except.ok (out ++ out2)) ∧
      (∀ (j : Nat) (v : Nat), ∃ out1,
        argb2rgba bigendian (buf.set j v) (buf.set j v).length = Except.ok out1 ∧
          ∀ i : Nat, i ≠ j → out1[i]? = out[i]?) := by
  refine ⟨buf.map (argb2rgba_word bigendian), argb2rgba_eq_map bigendian buf, by simp,
    ?_, ?_, ?_⟩
  · intro i v hv
    exact ⟨argb2rgba_word bigendian v, pixel_eq_word bigendian v, by simp [hv]⟩
  · intro buf2 out2 h2
    rw [argb2rgba_eq_map bigendian buf2] at h2
    cases h2
    rw [argb2rgba_eq_map bigendian (buf ++ buf2), List.map_append]
  · intro j v
    refine ⟨(buf.set j v).map (argb2rgba_word bigendian),
      argb2rgba_eq_map bigendian (buf.set j v), ?_⟩
    intro i hij
    simp [List.getElem?_set_ne (Ne.symm hij)]

/-- Evaluation of C11 on a buffer with one pixel of each kind, little-endian build. -/
theorem argb2rgba_pixelwise_witness :
    argb2rgba false [0x80804040, 0x00ABCDEF, 0xFF102030] 3
        = Except.ok [0x807F7FFF, 0xFFFFFFFF, 0xFF302010] ∧
      argb2rgba false ([0x80804040] ++ [0x00ABCDEF, 0xFF102030]) 3
        = Except.ok ([0x807F7FFF] ++ [0xFFFFFFFF, 0xFF302010]) := by
  obtain ⟨out, hout, -, -, hcat, -⟩ := argb2rgba_pixelwise false [0x80804040]
  have h1 : argb2rgba false [0x80804040] 1 = Except.ok [0x807F7FFF] := by rfl
  have h2 : argb2rgba false [0x00ABCDEF, 0xFF102030] 2
      = Except.ok [0xFFFFFFFF, 0xFF302010] := by rfl
  have e : out = [0x807F7FFF] := by
    have h := hout.symm.trans h1
    cases h
    rfl
  subst e
  have h3 := hcat [0x00ABCDEF, 0xFF102030] [0xFFFFFFFF, 0xFF302010] h2
  exact ⟨h3, h3⟩

/-- C12. Endianness independence of `argb2rgba`: for every pixel value, in each of
the three alpha branches, the word of the big-endian build stored most
significant byte first and the word of the little-endian build stored least
significant byte first are the same four bytes in memory. -/
theorem argb2rgba_endianness_independent (val : Nat) :
    ∃ wb wl, argb2rgba_pixel true val = Except.ok wb ∧
      argb2rgba_pixel false val = Except.ok wl ∧ memBytes true wb = memBytes false wl := by
  by_cases h0 : alphaOf val = 0
  · exact ⟨_, _, pixel_zero udiv true val h0, pixel_zero udiv false val h0, by decide⟩
  · by_cases h255 : alphaOf val = 255
    · obtain ⟨wb, hwb, hb⟩ := pixel_opaque_bytes true val h255
      obtain ⟨wl, hwl, hl⟩ := pixel_opaque_bytes false val h255
      exact ⟨wb, wl, hwb, hwl, hb.trans hl.symm⟩
    · obtain ⟨wb, hwb, hb⟩ := pixel_default_bytes_any true val h0 h255
      obtain ⟨wl, hwl, hl⟩ := pixel_default_bytes_any false val h0 h255
      exact ⟨wb, wl, hwb, hwl, hb.trans hl.symm⟩

/-- C13. The alpha = 255 fast path of `argb2rgba` agrees with the general path:
for a pixel with alpha 255 the word of the shift-and-byte-swap branch is the
word the default branch gives for the same pixel, on either build; there each
channel is `255 * c / 255 = c`, and on the little-endian build the word is
`255 << 24 | b << 16 | g << 8 | r`. -/
theorem argb2rgba_fast_path_agrees (bigendian : Bool) (val : Nat) (ha : alphaOf val = 255) :
    argb2rgba_pixel bigendian val = argb2rgba_default_branch udiv bigendian val 255 ∧
    argb2rgba_default_branch udiv false val 255
      = Except.ok (255 <<< 24 ||| blueOf val <<< 16 ||| greenOf val <<< 8 ||| redOf val) ∧
    255 * redOf val / 255 = redOf val ∧ 255 * greenOf val / 255 = greenOf val ∧
    255 * blueOf val / 255 = blueOf val := by
  have hr : redOf val < 256 := Nat.mod_lt _ (by decide)
  have hg : greenOf val < 256 := Nat.mod_lt _ (by decide)
  have hb : blueOf val < 256 := Nat.mod_lt _ (by decide)
  have hd : ∀ be : Bool, argb2rgba_default_branch udiv be val 255
      = Except.ok (if be then
          redOf val * 16777216 + greenOf val * 65536 + blueOf val * 256 + 255
        else
          255 * 16777216 + blueOf val * 65536 + greenOf val * 256 + redOf val) := by
    intro be
    rw [default_branch_closed be val 255 (by decide) (by decide), unpremul_255 _ hr,
      unpremul_255 _ hg, unpremul_255 _ hb]
  refine ⟨?_, ?_, by omega, by omega, by omega⟩
  · rw [hd bigendian]
    exact pixel_alpha255 udiv bigendian val ha
  · rw [hd false]
    have e := or_pack 255 _ _ _ hb hg hr
    simp only [Nat.shiftLeft_eq]
    norm_num at e ⊢
    rw [e]

/-- Witness of C13 at the pixel `0xFF102030`: both paths give `0xFF302010` on the
little-endian build. -/
theorem argb2rgba_fast_path_agrees_witness :
    argb2rgba_pixel false 0xFF102030 = Except.ok 0xFF302010 ∧
      argb2rgba_default_branch udiv false 0xFF102030 255 = Except.ok 0xFF302010 := by
  have h := (argb2rgba_fast_path_agrees false 0xFF102030 (by decide)).1
  have hv : argb2rgba_pixel false 0xFF102030 = Except.ok 0xFF302010 := by rfl
  exact ⟨hv, h.symm.trans hv⟩

/-- C14 as stated fails: for the pixel `0x01020000` (alpha 1, red 2), which has
`0 < alpha < 255`, the red byte `argb2rgba` leaves is `510 mod 256 = 254`, not
`min(255, 510) = 255`, so the bytes are not the clamped quotients. -/
theorem argb2rgba_clamp_counterexample :
    0 < alphaOf 0x01020000 ∧ alphaOf 0x01020000 < 255 ∧
    ¬ ∃ w, argb2rgba_pixel false 0x01020000 = Except.ok w ∧
      memBytes false w
        = [min 255 (255 * redOf 0x01020000 / alphaOf 0x01020000),
           min 255 (255 * greenOf 0x01020000 / alphaOf 0x01020000),
           min 255 (255 * blueOf 0x01020000 / alphaOf 0x01020000),
           alphaOf 0x01020000] := by
  refine ⟨by decide, by decide, ?_⟩
  rintro ⟨w, hw, hbytes⟩
  have hv : argb2rgba_pixel false 0x01020000 = Except.ok 0x010000FE := by rfl
  rw [hv] at hw
  cases hw
  revert hbytes
  decide

/-- C14, amended. For a pixel with `0 < alpha < 255` and any channel bytes, the
output channel is the quotient `255 * c / a` narrowed to 8 bits, with no
clamping; it is `min(255, 255 * c / a)` whenever the quotient is at most 255,
which is the case whenever `c ≤ a`. -/
theorem argb2rgba_clamp_amended (bigendian : Bool) (val : Nat)
    (ha0 : 0 < alphaOf val) (ha : alphaOf val < 255) :
    ∃ w sr sg sb, argb2rgba_pixel bigendian val = Except.ok w ∧
      memBytes bigendian w = [sr, sg, sb, alphaOf val] ∧
      sr = (255 * redOf val / alphaOf val) % 256 ∧
      sg = (255 * greenOf val / alphaOf val) % 256 ∧
      sb = (255 * blueOf val / alphaOf val) % 256 ∧
      (255 * redOf val / alphaOf val ≤ 255 → sr = min 255 (255 * redOf val / alphaOf val)) ∧
      (255 * greenOf val / alphaOf val ≤ 255 →
        sg = min 255 (255 * greenOf val / alphaOf val)) ∧
      (255 * blueOf val / alphaOf val ≤ 255 → sb = min 255 (255 * blueOf val / alphaOf val)) ∧
      (redOf val ≤ alphaOf val → 255 * redOf val / alphaOf val ≤ 255) ∧
      (greenOf val ≤ alphaOf val → 255 * greenOf val / alphaOf val ≤ 255) ∧
      (blueOf val ≤ alphaOf val → 255 * blueOf val / alphaOf val ≤ 255) := by
  obtain ⟨w, hw, hbytes⟩ := pixel_default_bytes_any bigendian val (by omega) (by omega)
  have hle : ∀ c, c ≤ alphaOf val → 255 * c / alphaOf val ≤ 255 := fun c hc =>
    (unpremul_of_le c (alphaOf val) ha0 (by omega) hc).2
  refine ⟨w, _, _, _, hw, hbytes, rfl, rfl, rfl, ?_, ?_, ?_, hle _, hle _, hle _⟩
  all_goals
    intro h
    rw [Nat.min_eq_right h]
    exact Nat.mod_eq_of_lt (Nat.lt_succ_of_le h)

/-- Witness of C14 amended at the pixel `0x01020000`: bytes `[254, 0, 0, 1]`. -/
theorem argb2rgba_clamp_amended_witness :
    ∃ w, argb2rgba_pixel false 0x01020000 = Except.ok w ∧
      memBytes false w = [254, 0, 0, 1] := by
  obtain ⟨w, sr, sg, sb, hw, hbytes, er, eg, eb, -⟩ :=
    argb2rgba_clamp_amended false 0x01020000 (by decide) (by decide)
  refine ⟨w, hw, ?_⟩
  rw [hbytes, er, eg, eb]
  decide

/-- C15. Unclamped truncation in `argb2rgba`: for a pixel with `0 < alpha < 255`
and any channel bytes, each output channel is `255 * c / a` modulo 256, and the
four bytes in memory are exactly these three values followed by alpha: a
quotient above 255 does not reach the neighbouring channels or the alpha byte.
On the little-endian build the word is the sum of the four bytes in their
positions. -/
theorem argb2rgba_unclamped_truncation (bigendian : Bool) (val : Nat)
    (ha0 : 0 < alphaOf val) (ha : alphaOf val < 255) :
    ∃ w, argb2rgba_pixel bigendian val = Except.ok w ∧
      memBytes bigendian w
        = [(255 * redOf val / alphaOf val) % 256, (255 * greenOf val / alphaOf val) % 256,
           (255 * blueOf val / alphaOf val) % 256, alphaOf val] ∧
      (bigendian = false →
        w = alphaOf val * 16777216 + (255 * blueOf val / alphaOf val) % 256 * 65536
          + (255 * greenOf val / alphaOf val) % 256 * 256
          + (255 * redOf val / alphaOf val) % 256) := by
  obtain ⟨w, hw, hbytes⟩ := pixel_default_bytes_any bigendian val (by omega) (by omega)
  refine ⟨w, hw, hbytes, ?_⟩
  intro hbe
  subst hbe
  have hp := pixel_default false val (by omega) (by omega)
  rw [hw] at hp
  have er := unpremul_eq (redOf val) (alphaOf val) (Nat.mod_lt _ (by decide))
  have eg := unpremul_eq (greenOf val) (alphaOf val) (Nat.mod_lt _ (by decide))
  have eb := unpremul_eq (blueOf val) (alphaOf val) (Nat.mod_lt _ (by decide))
  rw [← er, ← eg, ← eb]
  simpa using hp

/-- Witness of C15: alpha 1 and red 2 (pixel `0x01020304`) give the red byte
`510 mod 256 = 254`; green `765 mod 256 = 253`, blue `1020 mod 256 = 252`, alpha 1. -/
theorem argb2rgba_unclamped_truncation_witness :
    ∃ w, argb2rgba_pixel false 0x01020304 = Except.ok w ∧
      memBytes false w = [254, 253, 252, 1] := by
  obtain ⟨w, hw, hbytes, -⟩ :=
    argb2rgba_unclamped_truncation false 0x01020304 (by decide) (by decide)
  exact ⟨w, hw, hbytes.trans (by decide)⟩

/-- C16. Asymmetry between the two conversions: there is a pixel with
`0 < alpha < 255`, namely `0x80804040`, for which the red value `argb2float`
writes, `128/255`, differs from the straight red byte of `argb2rgba` over 255,
`255/255`; for alpha 255 the two agree on every channel, on either build. -/
theorem conversions_asymmetry :
    (∃ val w sr sg sb, 0 < alphaOf val ∧ alphaOf val < 255 ∧
      argb2rgba_pixel false val = Except.ok w ∧
      memBytes false w = [sr, sg, sb, alphaOf val] ∧
      (argb2float_pixel val : ℚ × ℚ × ℚ).1 = 128 / 255 ∧ (sr : ℚ) / 255 = 255 / 255 ∧
      (argb2float_pixel val : ℚ × ℚ × ℚ).1 ≠ (sr : ℚ) / 255) ∧
    (∀ (bigendian : Bool) (val : Nat), alphaOf val = 255 →
      ∃ w sr sg sb, argb2rgba_pixel bigendian val = Except.ok w ∧
        memBytes bigendian w = [sr, sg, sb, 255] ∧
        (argb2float_pixel val : ℚ × ℚ × ℚ)
          = ((sr : ℚ) / ((255 : Nat) : ℚ), (sg : ℚ) / ((255 : Nat) : ℚ),
             (sb : ℚ) / ((255 : Nat) : ℚ))) := by
  constructor
  · have hf : (argb2float_pixel 0x80804040 : ℚ × ℚ × ℚ).1 = 128 / 255 := by
      rw [argb2float_pixel_eq]
      have e0 : alphaOf 0x80804040 ≠ 0 := by decide
      have e1 : redOf 0x80804040 = 128 := by decide
      rw [if_neg e0, e1]
      norm_num
    refine ⟨0x80804040, 0x807F7FFF, 255, 127, 127, by decide, by decide, by rfl, by decide,
      hf, by norm_num, ?_⟩
    rw [hf]
    norm_num
  · intro bigendian val ha
    obtain ⟨w, hw, hbytes⟩ := pixel_opaque_bytes bigendian val ha
    refine ⟨w, _, _, _, hw, hbytes, ?_⟩
    rw [argb2float_pixel_eq, if_neg (by omega)]

/-- C17. Un-premultiplying never overshoots the true sample: for samples
`tr, tg, tb` in `0..255` and a pixel with alpha `a` in `1..255` whose channels
are the premultiplied values `t * a / 255`, the straight channels `argb2rgba`
leaves in memory satisfy `s ≤ t`, and `s = t` when `a = 255`. -/
theorem unpremultiply_never_overshoots (bigendian : Bool) (val tr tg tb : Nat)
    (htr : tr ≤ 255) (htg : tg ≤ 255) (htb : tb ≤ 255) (ha0 : 1 ≤ alphaOf val)
    (hr : redOf val = tr * alphaOf val / 255) (hg : greenOf val = tg * alphaOf val / 255)
    (hb : blueOf val = tb * alphaOf val / 255) :
    ∃ w sr sg sb, argb2rgba_pixel bigendian val = Except.ok w ∧
      memBytes bigendian w = [sr, sg, sb, alphaOf val] ∧
      sr ≤ tr ∧ sg ≤ tg ∧ sb ≤ tb ∧
      (alphaOf val = 255 → sr = tr ∧ sg = tg ∧ sb = tb) := by
  have hA : alphaOf val < 256 := Nat.mod_lt _ (by decide)
  by_cases h255 : alphaOf val = 255
  · obtain ⟨w, hw, hbytes⟩ := pixel_opaque_bytes bigendian val h255
    rw [h255] at hr hg hb
    have er : redOf val = tr := by omega
    have eg : greenOf val = tg := by omega
    have eb : blueOf val = tb := by omega
    refine ⟨w, tr, tg, tb, hw, ?_, le_refl _, le_refl _, le_refl _, fun _ => ⟨rfl, rfl, rfl⟩⟩
    rw [hbytes, er, eg, eb, h255]
  · have key : ∀ c t, t ≤ 255 → c = t * alphaOf val / 255 →
        c ≤ alphaOf val ∧ 255 * c / alphaOf val ≤ t := by
      intro c t ht hc
      have h1 : 255 * (t * alphaOf val / 255) ≤ t * alphaOf val := Nat.mul_div_le _ _
      have h2 : t * alphaOf val ≤ 255 * alphaOf val := Nat.mul_le_mul_right _ ht
      subst hc
      constructor
      · omega
      · apply Nat.div_le_of_le_mul
        rw [Nat.mul_comm (alphaOf val) t]
        exact h1
    obtain ⟨cr, sr⟩ := key _ _ htr hr
    obtain ⟨cg, sg⟩ := key _ _ htg hg
    obtain ⟨cb, sb⟩ := key _ _ htb hb
    obtain ⟨w, hw, hbytes, -⟩ :=
      pixel_default_bytes bigendian val (by omega) (by omega) cr cg cb
    exact ⟨w, _, _, _, hw, hbytes, sr, sg, sb, fun h => absurd h h255⟩

/-- Witness of C17 at the pixel `0x80804040`: alpha 128 and samples 255, 128, 128
premultiply to 128, 64, 64. -/
theorem unpremultiply_never_overshoots_witness :
    ∃ w sr sg sb, argb2rgba_pixel false 0x80804040 = Except.ok w ∧
      memBytes false w = [sr, sg, sb, alphaOf 0x80804040] ∧
      sr ≤ 255 ∧ sg ≤ 128 ∧ sb ≤ 128 ∧
      (alphaOf 0x80804040 = 255 → sr = 255 ∧ sg = 128 ∧ sb = 128) :=
  unpremultiply_never_overshoots false 0x80804040 255 128 128 (by decide) (by decide)
    (by decide) (by decide) (by decide) (by decide) (by decide)

end Convert
